import Mathlib

/-!
Verification development for the tiny-chat incremental decoding engine
(src/src/App.jsx).  The numerical core is embedded shallowly: JavaScript
numbers are modelled as exact rationals, `Math.exp` as an abstract scalar
map `e : ℚ → ℚ` (positive where a claim needs positivity of the
exponential), JavaScript arrays as lists, and the IndexedDB-backed KV
cache as a map from layer indices to optional cache entries.  Out-of-range
array reads, which yield `undefined`/`NaN` in JavaScript, are modelled by
`List.getD` defaults; every theorem below either supplies the shape
hypotheses that keep all reads in bounds or, where a read pattern is
in-bounds by construction, needs no such hypothesis.
-/

namespace TinyChat

/-- A vector of JavaScript numbers, modelled as rationals. -/
abbrev Vec := List ℚ

/-- A matrix: a list of rows. -/
abbrev Mat := List (List ℚ)

/-- `const d_model = 32`. -/
def d_model : Nat := 32

/-- `const n_layers = 2`. -/
def n_layers : Nat := 2

/-- `const vocab_size = 100`. -/
def vocab_size : Nat := 100

/-- `const EOS = 99`. -/
def EOS : Nat := 99

/-- `const maxTokens = 100`. -/
def maxTokens : Nat := 100

/-- `matMul(A, B)` from the source: `rows = A.length`, `cols = B[0].length`,
`K = B.length`, and `out[i][j] = Σ_{k<K} A[i][k] * B[k][j]`.  The source
performs no shape validation whatsoever. -/
def matMul (A B : Mat) : Mat :=
  (List.range A.length).map (fun i =>
    (List.range (B.headD []).length).map (fun j =>
      (List.range B.length).foldl
        (fun acc k => acc + (A.getD i []).getD k 0 * (B.getD k []).getD j 0) 0))

/-- `Math.max(...vec)` for the nonempty vectors the source applies it to. -/
def listMax : Vec → ℚ
  | [] => 0
  | x :: xs => xs.foldl max x

/-- `softmax(vec)` from the source: subtract the maximum, apply the
exponential `e`, divide by the sum of the exponentials (the source's
`reduce((a, b) => a + b, 0)` is a left fold from `0`). -/
def softmax (e : ℚ → ℚ) (vec : Vec) : Vec :=
  let m := listMax vec
  let exps := vec.map (fun x => e (x - m))
  let s := exps.foldl (· + ·) 0
  exps.map (fun x => x / s)

/-- `encode(str)`: each character code mapped modulo `vocab_size - 1`.
Strings are modelled as their lists of character codes. -/
def encode (str : List Nat) : List Nat :=
  str.map (fun c => c % (vocab_size - 1))

/-- `decode(arr)`: each token maps to the one-character string of code
`x + 65`, except `EOS` which maps to the empty string; the pieces are
joined.  Strings are modelled as lists of character codes, so the join is
a flatten. -/
def decode (arr : List Nat) : List Nat :=
  (arr.map (fun x => if x = EOS then [] else [x + 65])).flatten

/-- One layer's KV cache entry: `{ keys: [...], values: [...] }`. -/
structure KVEntry where
  keys : List Vec
  values : List Vec
deriving DecidableEq

/-- The empty cache entry `{ keys: [], values: [] }`. -/
def emptyKV : KVEntry := ⟨[], []⟩

/-- The in-memory cache object `kvCacheRef.current`: a JavaScript object
keyed by layer index, so a partial map from layer indices to entries. -/
abbrev Cache := Nat → Option KVEntry

/-- Reading `kvCacheRef.current[l] || { keys: [], values: [] }` (a stored
entry is a JavaScript object, hence truthy, so `||` only fires on a
missing key). -/
def readKV (c : Cache) (l : Nat) : KVEntry :=
  (c l).getD emptyKV

/-- The assignment `kvCacheRef.current[l] = kv`. -/
def writeKV (c : Cache) (l : Nat) (kv : KVEntry) : Cache :=
  fun i => if i = l then some kv else c i

/-- The outcome of the `get` request inside `getKV`, once `openDB()` has
resolved: a stored entry (`req.onsuccess` with a truthy result), an
absent key (`req.result` is `undefined`), a request error (the
`req.onerror` path), or a synchronous throw while opening the
transaction, which rejects the inner promise. -/
inductive GetResult where
  | found : KVEntry → GetResult
  | absent : GetResult
  | requestError : GetResult
  | transactionThrew : GetResult

/-- The outcome of the composed promise `openDB().then(...)` that
`getKV` returns: either `indexedDB.open` failed, so `openDB()`'s promise
rejected (`request.onerror` in `openDB`, a rejection `getKV` does not
catch), or the database opened and the `get` request ran with some
outcome. -/
inductive DBResult where
  | openFailure : DBResult
  | opened : GetResult → DBResult

/-- The uncaught rejections of `getKV`'s promise chain. -/
inductive DBError where
  | openFailed : DBError
  | transactionFailed : DBError

/-- `getKV(layer)` from the source: `openDB().then(db => new Promise(...))`
with no catch.  The inner `get` request resolves `req.result || empty`
on success and the empty entry on `req.onerror`, so neither of those
outcomes rejects; but a rejection of `openDB()` (the `indexedDB.open`
error path), or a synchronous `db.transaction` throw inside the `then`
callback, rejects the returned promise and propagates to the caller. -/
def getKV : DBResult → Except DBError KVEntry
  | .openFailure => .error .openFailed
  | .opened .transactionThrew => .error .transactionFailed
  | .opened (.found kv) => .ok kv
  | .opened .absent => .ok emptyKV
  | .opened .requestError => .ok emptyKV

/-- The transformer parameters `Wq`, `Wk`, `Wv`, `Wo` (one `d_model × d_model`
matrix per layer), `W_embed` (`vocab_size × d_model`) and `W_out`
(`d_model × vocab_size`).  The source fills them with `Math.random()`
values at start-up; the model quantifies over any matrices of those
shapes. -/
structure Params where
  Wq : List Mat
  Wk : List Mat
  Wv : List Mat
  Wo : List Mat
  W_embed : Mat
  W_out : Mat

/-- The body of the `for (let l = 0; l < n_layers; l++)` loop of
`transformerStep`, for one layer: compute `q`, `k`, `v` as single-row
matrix products, push `k` and `v` onto the entry, score every cached key
against `q` by the indexed reduce `Σ_i kvk[i] * q[i]`, softmax, accumulate
`attn[j] += kv.values[i][j] * probs[i]`, and project through `Wo`.
Returns the next `x` and the updated entry. -/
def layerStep (e : ℚ → ℚ) (Wql Wkl Wvl Wol : Mat) (kv : KVEntry) (x : Vec) :
    Vec × KVEntry :=
  let q := (matMul [x] Wql).headD []
  let k := (matMul [x] Wkl).headD []
  let v := (matMul [x] Wvl).headD []
  let keys := kv.keys ++ [k]
  let values := kv.values ++ [v]
  let scores := keys.map (fun kvk =>
    (List.range kvk.length).foldl (fun a i => a + kvk.getD i 0 * q.getD i 0) 0)
  let probs := softmax e scores
  let attn := (List.range d_model).map (fun j =>
    (List.range values.length).foldl
      (fun acc i => acc + (values.getD i []).getD j 0 * probs.getD i 0) 0)
  ((matMul [attn] Wol).headD [], ⟨keys, values⟩)

/-- `transformerStep(inputToken)` from the source: start from row
`inputToken` of `W_embed`, run every layer in order against the shared
cache (reading `kvCacheRef.current[l] || empty` and writing the updated
entry back), then take the logits `matMul([x], W_out)[0]` and return
`logits.indexOf(Math.max(...logits))` together with the updated cache.
(`Array.prototype.indexOf` returns the first occurrence; the maximum of a
nonempty list is always found, so the `-1` branch never fires.) -/
def transformerStep (e : ℚ → ℚ) (p : Params) (c : Cache) (inputToken : Nat) :
    Nat × Cache :=
  let x0 := p.W_embed.getD inputToken []
  let r := (List.range n_layers).foldl
    (fun (acc : Vec × Cache) l =>
      let kv := readKV acc.2 l
      let s := layerStep e (p.Wq.getD l []) (p.Wk.getD l []) (p.Wv.getD l [])
        (p.Wo.getD l []) kv acc.1
      (s.1, writeKV acc.2 l s.2))
    (x0, c)
  let logits := (matMul [r.1] p.W_out).headD []
  (logits.indexOf (listMax logits), r.2)

/-- The `for (let i = 0; i < maxTokens; i++)` loop of
`generateBotResponse`, with the remaining iteration count as fuel: run
`transformerStep` on the current input token; on `EOS` stop (the cache
mutation of that step is kept, the token is not emitted); otherwise push
the token and feed it back as the next input. -/
def genLoop (e : ℚ → ℚ) (p : Params) :
    Nat → Nat → Cache → List Nat → List Nat × Cache
  | 0, _, c, out => (out, c)
  | n + 1, t, c, out =>
    let r := transformerStep e p c t
    if r.1 = EOS then (out, r.2)
    else genLoop e p n r.1 r.2 (out ++ [r.1])

/-- `generateBotResponse(userTokens)` from the source: start from
`userTokens[0]` and run at most `maxTokens` decoder steps.  Returns the
emitted tokens and the final cache. -/
def generateBotResponse (e : ℚ → ℚ) (p : Params) (c : Cache)
    (userTokens : List Nat) : List Nat × Cache :=
  genLoop e p maxTokens (userTokens.headD 0) c []

/-! ## Reference definitions, written from the spec's words

The following definitions restate the Decoder Step of spec §4.4 / claim C1
in textbook vocabulary (dot products as zipped sums, the attention output
as a probability-weighted sum of value vectors, argmax as the first index
whose entry attains the maximum).  They exist only to be compared with
the source-derived definitions above. -/

/-- Dot product of two vectors, textbook style. -/
def dotZip (u v : Vec) : ℚ :=
  (List.zipWith (· * ·) u v).sum

/-- Column `j` of a matrix. -/
def column (M : Mat) (j : Nat) : Vec :=
  M.map (fun r => r.getD j 0)

/-- A single-row vector–matrix product: entry `j` is the dot product of
`x` with column `j` of `M`. -/
def vecMat (x : Vec) (M : Mat) : Vec :=
  (List.range (M.headD []).length).map (fun j => dotZip x (column M j))

/-- Scaling a vector by a scalar. -/
def scaleVec (a : ℚ) (v : Vec) : Vec :=
  v.map (fun x => a * x)

/-- Componentwise vector addition. -/
def addVec (u v : Vec) : Vec :=
  List.zipWith (· + ·) u v

/-- The probability-weighted sum of the cached value vectors. -/
def weightedSum (probs : Vec) (vals : List Vec) : Vec :=
  (List.zipWith scaleVec probs vals).foldl addVec (List.replicate d_model 0)

/-- The first-occurring index of the maximum entry: the first position
whose entry is at least the maximum of the vector. -/
def firstMaxIdx (v : Vec) : Nat :=
  v.findIdx (fun x => decide (listMax v ≤ x))

/-- One layer of the Decoder Step as spec §4.4 states it: `q`, `k`, `v`
as single-row products, append `k`/`v` to the entry, score every cached
key (the appended one included) by its dot product with `q`, softmax,
take the probability-weighted sum of all cached values, and project
through the layer's output matrix. -/
def layerStepSpec (e : ℚ → ℚ) (Wql Wkl Wvl Wol : Mat) (kv : KVEntry)
    (x : Vec) : Vec × KVEntry :=
  let q := vecMat x Wql
  let k := vecMat x Wkl
  let v := vecMat x Wvl
  let keys := kv.keys ++ [k]
  let values := kv.values ++ [v]
  let scores := keys.map (fun key => dotZip key q)
  let probs := softmax e scores
  let attn := weightedSum probs values
  (vecMat attn Wol, ⟨keys, values⟩)

/-- The Decoder Step as spec §4.4 / claim C1 states it: `x` starts as row
`t` of the embedding matrix, the layers run in increasing order each
consuming the previous output (no residual connection, no normalization,
no feed-forward sublayer), and after the last layer the output token is
the first-occurring index of the maximum entry of `x · W_out`. -/
def transformerStepSpec (e : ℚ → ℚ) (p : Params) (c : Cache) (t : Nat) :
    Nat × Cache :=
  let x0 := p.W_embed.getD t []
  let r := (List.range n_layers).foldl
    (fun (acc : Vec × Cache) l =>
      let kv := readKV acc.2 l
      let s := layerStepSpec e (p.Wq.getD l []) (p.Wk.getD l [])
        (p.Wv.getD l []) (p.Wo.getD l []) kv acc.1
      (s.1, writeKV acc.2 l s.2))
    (x0, c)
  let logits := vecMat r.1 p.W_out
  (firstMaxIdx logits, r.2)

/-! ## Well-formedness predicates -/

/-- `M` is an `r × c` matrix. -/
def MatWF (M : Mat) (r c : Nat) : Prop :=
  M.length = r ∧ ∀ row ∈ M, row.length = c

/-- The shapes the source's `randomMatrix` calls guarantee. -/
def ParamsWF (p : Params) : Prop :=
  p.Wq.length = n_layers ∧ p.Wk.length = n_layers ∧
  p.Wv.length = n_layers ∧ p.Wo.length = n_layers ∧
  (∀ M ∈ p.Wq, MatWF M d_model d_model) ∧
  (∀ M ∈ p.Wk, MatWF M d_model d_model) ∧
  (∀ M ∈ p.Wv, MatWF M d_model d_model) ∧
  (∀ M ∈ p.Wo, MatWF M d_model d_model) ∧
  MatWF p.W_embed vocab_size d_model ∧
  MatWF p.W_out d_model vocab_size

/-- A well-formed cache entry: equally many keys and values, all of
dimension `d_model`. -/
def EntryWF (kv : KVEntry) : Prop :=
  kv.keys.length = kv.values.length ∧
  (∀ k ∈ kv.keys, k.length = d_model) ∧
  (∀ v ∈ kv.values, v.length = d_model)

/-- A well-formed cache: every layer the step touches holds a well-formed
entry. -/
def CacheWF (c : Cache) : Prop :=
  ∀ l < n_layers, EntryWF (readKV c l)

instance : DecidablePred EntryWF := fun kv => by
  unfold EntryWF; infer_instance

instance (M : Mat) (r c : Nat) : Decidable (MatWF M r c) := by
  unfold MatWF; infer_instance

instance (p : Params) : Decidable (ParamsWF p) := by
  unfold ParamsWF; infer_instance

instance (c : Cache) : Decidable (CacheWF c) := by
  unfold CacheWF; infer_instance

/-- The cache after a sequence of Decoder Step invocations (spec §3: "both
grow only by one entry per Decoder Step invocation"). -/
def iterSteps (e : ℚ → ℚ) (p : Params) (c : Cache) (ts : List Nat) : Cache :=
  ts.foldl (fun c' t => (transformerStep e p c' t).2) c

/-! ## Concrete inputs used to instantiate the theorems -/

/-- An all-zero `r × c` matrix, a concrete instance of the shapes
`randomMatrix(r, c)` produces. -/
def zeroMat (r c : Nat) : Mat :=
  List.replicate r (List.replicate c 0)

/-- Parameters of the source's shapes with all-zero entries. -/
def zeroParams : Params :=
  ⟨List.replicate n_layers (zeroMat d_model d_model),
   List.replicate n_layers (zeroMat d_model d_model),
   List.replicate n_layers (zeroMat d_model d_model),
   List.replicate n_layers (zeroMat d_model d_model),
   zeroMat vocab_size d_model, zeroMat d_model vocab_size⟩

/-- A concrete positive stand-in for the exponential map. -/
def oneExp : ℚ → ℚ := fun _ => 1

/-- The cache before anything was persisted. -/
def emptyCache : Cache := fun _ => none

/-- A malformed cache: layer 0 holds one key but no value. -/
def malformedCache : Cache :=
  fun l => if l = 0 then some ⟨[List.replicate d_model 0], []⟩ else none

/-! ## Helper lemmas: folds, ranges and dot products -/

theorem foldl_add_eq_sum {α : Type} (g : α → ℚ) (l : List α) (c : ℚ) :
    l.foldl (fun a x => a + g x) c = c + (l.map g).sum := by
  induction l generalizing c with
  | nil => simp
  | cons x xs ih => simp [ih, add_assoc]

theorem map_range_getD {α : Type} (u : List α) (d : α) :
    (List.range u.length).map (fun k => u.getD k d) = u := by
  induction u with
  | nil => simp
  | cons a u ih =>
    rw [List.length_cons, List.range_succ_eq_map, List.map_cons, List.map_map]
    have hc : (List.map ((fun k => (a :: u).getD k d) ∘ Nat.succ)
        (List.range u.length)) =
        List.map (fun k => u.getD k d) (List.range u.length) := by
      apply List.map_congr_left
      intro k _
      simp [List.getD_cons_succ]
    rw [hc, ih]
    simp

theorem range_map_succ_getD (u : Vec) (g : ℚ → ℚ) (n : Nat) (a : ℚ) :
    (List.map (fun i => g ((a :: u).getD (Nat.succ i) 0)) (List.range n)) =
    (List.map (fun i => g (u.getD i 0)) (List.range n)) := by
  simp [List.getD_cons_succ]

theorem sum_range_mul_getD (u w : Vec) :
    ((List.range u.length).map (fun i => u.getD i 0 * w.getD i 0)).sum =
    (List.zipWith (· * ·) u w).sum := by
  induction u generalizing w with
  | nil => simp
  | cons a u ih =>
    cases w with
    | nil =>
      simp only [List.zipWith_nil_right, List.sum_nil]
      have h0 : ∀ i ∈ List.range (a :: u).length,
          (a :: u).getD i 0 * ([] : Vec).getD i 0 = 0 := by
        intro i _; simp
      rw [List.map_congr_left h0]
      simp only [List.map_const', List.sum_replicate, smul_zero]
    | cons b w =>
      rw [List.length_cons, List.range_succ_eq_map]
      simp only [List.map_cons, List.getD_cons_zero, List.map_map,
        List.sum_cons, List.zipWith_cons_cons]
      have : (List.map ((fun i => (a :: u).getD i 0 * (b :: w).getD i 0) ∘
          Nat.succ) (List.range u.length)).sum =
          (List.zipWith (· * ·) u w).sum := by
        rw [← ih w]
        congr 1
      rw [this]

/-- The source's indexed reduce `Σ_{i < kvk.length} kvk[i] * q[i]` equals
the textbook dot product, for any two vectors: out-of-range reads on
either side contribute zero on the left and are truncated on the right. -/
theorem dotIdx_eq_dotZip (u w : Vec) :
    (List.range u.length).foldl (fun a i => a + u.getD i 0 * w.getD i 0) 0 =
    dotZip u w := by
  rw [foldl_add_eq_sum (fun i => u.getD i 0 * w.getD i 0), zero_add, dotZip,
    sum_range_mul_getD]

theorem getD_column (M : Mat) (j k : Nat) :
    (column M j).getD k 0 = (M.getD k []).getD j 0 := by
  rcases h : M[k]? with _ | r
  · have : k ≥ M.length := by
      by_contra hk
      push_neg at hk
      simp [List.getElem?_eq_getElem hk] at h
    simp [column, List.getD_eq_getElem?_getD, List.getElem?_map, h]
  · simp [column, List.getD_eq_getElem?_getD, List.getElem?_map, h]

/-- The single row of `matMul([x], M)`, unfolded. -/
theorem rowMul_def (x : Vec) (M : Mat) :
    (matMul [x] M).headD [] =
    (List.range (M.headD []).length).map (fun j =>
      (List.range M.length).foldl
        (fun acc k => acc + x.getD k 0 * (M.getD k []).getD j 0) 0) := by
  simp [matMul, List.range_succ, List.range_zero]

theorem length_rowMul (x : Vec) (M : Mat) :
    ((matMul [x] M).headD []).length = (M.headD []).length := by
  rw [rowMul_def]; simp

/-- On conforming shapes (`x` as long as `M` has rows) the source's
single-row product is the textbook vector–matrix product. -/
theorem rowMul_eq_vecMat (x : Vec) (M : Mat) (h : x.length = M.length) :
    (matMul [x] M).headD [] = vecMat x M := by
  rw [rowMul_def, vecMat]
  apply List.map_congr_left
  intro j _
  rw [foldl_add_eq_sum (fun k => x.getD k 0 * (M.getD k []).getD j 0),
    zero_add]
  have : (List.range M.length).map
      (fun k => x.getD k 0 * (M.getD k []).getD j 0) =
      (List.range x.length).map
      (fun k => x.getD k 0 * (column M j).getD k 0) := by
    rw [h]
    apply List.map_congr_left
    intro k _
    rw [getD_column]
  rw [this, sum_range_mul_getD, dotZip]

/-! ## Helper lemmas: maximum and argmax -/

theorem le_foldl_max (l : List ℚ) (a : ℚ) : a ≤ l.foldl max a := by
  induction l generalizing a with
  | nil => simp
  | cons x xs ih => exact le_trans (le_max_left a x) (ih (max a x))

theorem mem_le_foldl_max (l : List ℚ) : ∀ (a x : ℚ), x ∈ l → x ≤ l.foldl max a := by
  induction l with
  | nil => intro a x hx; cases hx
  | cons y ys ih =>
    intro a x hx
    rcases List.mem_cons.mp hx with h | h
    · subst h
      exact le_trans (le_max_right a x) (le_foldl_max ys (max a x))
    · exact ih (max a y) x h

theorem le_listMax (l : List ℚ) (x : ℚ) (hx : x ∈ l) : x ≤ listMax l := by
  cases l with
  | nil => cases hx
  | cons a l =>
    rcases List.mem_cons.mp hx with h | h
    · subst h
      exact le_foldl_max l x
    · exact mem_le_foldl_max l a x h

theorem foldl_max_mem (l : List ℚ) (a : ℚ) : l.foldl max a = a ∨ l.foldl max a ∈ l := by
  induction l generalizing a with
  | nil => left; rfl
  | cons x xs ih =>
    rw [List.foldl_cons]
    rcases ih (max a x) with h | h
    · rcases max_choice a x with hm | hm
      · left; rw [h, hm]
      · right; rw [h, hm]; exact List.mem_cons_self x xs
    · right; exact List.mem_cons_of_mem x h

theorem listMax_mem (l : List ℚ) (hl : l ≠ []) : listMax l ∈ l := by
  cases l with
  | nil => exact absurd rfl hl
  | cons a l =>
    rcases foldl_max_mem l a with h | h
    · rw [listMax, h]; exact List.mem_cons_self a l
    · exact List.mem_cons_of_mem a h

/-- The source's `logits.indexOf(Math.max(...logits))` is the
first-occurring index of the maximum entry. -/
theorem indexOf_listMax (l : List ℚ) : l.indexOf (listMax l) = firstMaxIdx l := by
  have key : ∀ (m : ℚ) (l' : List ℚ), (∀ x ∈ l', x ≤ m) →
      l'.indexOf m = l'.findIdx (fun x => decide (m ≤ x)) := by
    intro m l' hb
    induction l' with
    | nil => rfl
    | cons a l' ih =>
      have ha : a ≤ m := hb a (List.mem_cons_self a l')
      rw [List.indexOf_cons, List.findIdx_cons]
      have : (a == m) = decide (m ≤ a) := by
        by_cases h : a = m
        · subst h; simp
        · have : ¬ m ≤ a := fun hle => h (le_antisymm ha hle)
          simp [h, this]
      rw [this, ih (fun x hx => hb x (List.mem_cons_of_mem a hx))]
  exact key (listMax l) l (le_listMax l)

/-! ## Helper lemmas: vector sums for the attention output -/

theorem getD_scaleVec (a : ℚ) (v : Vec) (j : Nat) :
    (scaleVec a v).getD j 0 = a * v.getD j 0 := by
  rcases h : v[j]? with _ | x <;>
    simp [scaleVec, List.getD_eq_getElem?_getD, List.getElem?_map, h]

theorem length_addVec (u v : Vec) (h : v.length = u.length) :
    (addVec u v).length = u.length := by
  simp [addVec, h]

theorem getD_addVec (u v : Vec) (h : v.length = u.length) (j : Nat) :
    (addVec u v).getD j 0 = u.getD j 0 + v.getD j 0 := by
  induction u generalizing v j with
  | nil =>
    cases v with
    | nil => simp [addVec]
    | cons b w => simp at h
  | cons a u ih =>
    cases v with
    | nil => simp at h
    | cons b w =>
      cases j with
      | zero => simp [addVec]
      | succ j =>
        have hw : w.length = u.length := by simpa using h
        simpa [addVec, List.getD_cons_succ] using ih w hw j

theorem foldl_addVec_length (L : List Vec) (acc : Vec)
    (h : ∀ w ∈ L, w.length = acc.length) :
    (L.foldl addVec acc).length = acc.length := by
  induction L generalizing acc with
  | nil => rfl
  | cons w L ih =>
    have hw : w.length = acc.length := h w (List.mem_cons_self w L)
    have h1 : (addVec acc w).length = acc.length := length_addVec acc w hw
    rw [List.foldl_cons, ih (addVec acc w) (fun w' hw' => by
      rw [h1]; exact h w' (List.mem_cons_of_mem w hw')), h1]

theorem foldl_addVec_getD (L : List Vec) (acc : Vec)
    (h : ∀ w ∈ L, w.length = acc.length) (j : Nat) :
    (L.foldl addVec acc).getD j 0 =
    acc.getD j 0 + (L.map (fun w => w.getD j 0)).sum := by
  induction L generalizing acc with
  | nil => simp
  | cons w L ih =>
    have hw : w.length = acc.length := h w (List.mem_cons_self w L)
    have h1 : (addVec acc w).length = acc.length := length_addVec acc w hw
    rw [List.foldl_cons, ih (addVec acc w) (fun w' hw' => by
      rw [h1]; exact h w' (List.mem_cons_of_mem w hw')),
      getD_addVec acc w hw, List.map_cons, List.sum_cons, add_assoc]

theorem sum_range_vals (values : List Vec) (probs : Vec) (j : Nat)
    (h : probs.length = values.length) :
    ((List.range values.length).map
      (fun i => (values.getD i []).getD j 0 * probs.getD i 0)).sum =
    (List.zipWith (fun a v => a * v.getD j 0) probs values).sum := by
  induction values generalizing probs with
  | nil => simp
  | cons v vs ih =>
    cases probs with
    | nil => simp at h
    | cons a ps =>
      have hp : ps.length = vs.length := by simpa using h
      rw [List.length_cons, List.range_succ_eq_map]
      simp only [List.map_cons, List.getD_cons_zero, List.map_map,
        List.sum_cons, List.zipWith_cons_cons]
      have tail : (List.map ((fun i => ((v :: vs).getD i []).getD j 0 *
          (a :: ps).getD i 0) ∘ Nat.succ) (List.range vs.length)).sum =
          (List.zipWith (fun b w => b * w.getD j 0) ps vs).sum := by
        rw [← ih ps hp]
        congr 1
      rw [tail, mul_comm]

theorem getD_replicate_zero (n j : Nat) : (List.replicate n (0 : ℚ)).getD j 0 = 0 := by
  induction n generalizing j with
  | zero => simp
  | succ n ih =>
    cases j with
    | zero => simp [List.replicate_succ]
    | succ j => simp [List.replicate_succ, List.getD_cons_succ, ih]

theorem length_zipWith_scaleVec (ps : Vec) (vs : List Vec) (d : Nat)
    (hv : ∀ v ∈ vs, v.length = d) :
    ∀ w ∈ List.zipWith scaleVec ps vs, w.length = d := by
  induction ps generalizing vs with
  | nil => intro w hw; simp at hw
  | cons a ps ih =>
    cases vs with
    | nil => intro w hw; simp at hw
    | cons v vs =>
      intro w hw
      rcases List.mem_cons.mp hw with h | h
      · subst h
        simpa [scaleVec] using hv v (List.mem_cons_self v vs)
      · exact ih vs (fun v' hv' => hv v' (List.mem_cons_of_mem v hv')) w h

theorem length_weightedSum (probs : Vec) (vals : List Vec)
    (hv : ∀ v ∈ vals, v.length = d_model) :
    (weightedSum probs vals).length = d_model := by
  rw [weightedSum]
  have := foldl_addVec_length (List.zipWith scaleVec probs vals)
    (List.replicate d_model 0)
    (by simpa using length_zipWith_scaleVec probs vals d_model hv)
  simpa using this

/-- The source's accumulation loop `attn[j] += kv.values[i][j] * probs[i]`
computes exactly the probability-weighted sum of the cached value
vectors. -/
theorem attn_eq (values : List Vec) (probs : Vec)
    (hlen : probs.length = values.length)
    (hv : ∀ v ∈ values, v.length = d_model) :
    (List.range d_model).map (fun j =>
      (List.range values.length).foldl
        (fun acc i => acc + (values.getD i []).getD j 0 * probs.getD i 0) 0) =
    weightedSum probs values := by
  have hL : ∀ w ∈ List.zipWith scaleVec probs values, w.length = d_model :=
    length_zipWith_scaleVec probs values d_model hv
  have hlenW : (weightedSum probs values).length = d_model :=
    length_weightedSum probs values hv
  have hrw : weightedSum probs values =
      (List.range d_model).map (fun j => (weightedSum probs values).getD j 0) := by
    conv_rhs => rw [← hlenW]
    rw [map_range_getD]
  rw [hrw]
  apply List.map_congr_left
  intro j _
  rw [foldl_add_eq_sum (fun i => (values.getD i []).getD j 0 * probs.getD i 0),
    zero_add, sum_range_vals values probs j hlen, weightedSum,
    foldl_addVec_getD _ _ (by simpa using hL) j, getD_replicate_zero,
    zero_add, List.map_zipWith]
  have hfun : (fun (a : ℚ) (v : Vec) => (scaleVec a v).getD j 0) =
      fun (a : ℚ) (v : Vec) => a * v.getD j 0 := by
    funext a v
    rw [getD_scaleVec]
  rw [hfun]

theorem MatWF_headD_length (M : Mat) (r c : Nat) (h : MatWF M r c)
    (hr : 0 < r) : (M.headD []).length = c := by
  cases M with
  | nil =>
    rw [show r = ([] : Mat).length from h.1.symm] at hr
    cases hr
  | cons row M => exact h.2 row (List.mem_cons_self row M)

theorem MatWF_getD_length (M : Mat) (r c i : Nat) (h : MatWF M r c)
    (hi : i < r) : (M.getD i []).length = c := by
  have hm : i < M.length := by rw [h.1]; exact hi
  rw [List.getD_eq_getElem M [] hm]
  exact h.2 _ (List.getElem_mem hm)

theorem softmax_length (e : ℚ → ℚ) (v : Vec) : (softmax e v).length = v.length := by
  simp [softmax]

/-- The source's per-layer loop body agrees with the spec's description
of one layer, on well-formed inputs. -/
theorem layerStep_eq (e : ℚ → ℚ) (Wql Wkl Wvl Wol : Mat) (kv : KVEntry)
    (x : Vec) (hq : MatWF Wql d_model d_model) (hk : MatWF Wkl d_model d_model)
    (hv : MatWF Wvl d_model d_model) (ho : MatWF Wol d_model d_model)
    (hkv : EntryWF kv) (hx : x.length = d_model) :
    layerStep e Wql Wkl Wvl Wol kv x = layerStepSpec e Wql Wkl Wvl Wol kv x := by
  have hxq : x.length = Wql.length := by rw [hx, hq.1]
  have hxk : x.length = Wkl.length := by rw [hx, hk.1]
  have hxv : x.length = Wvl.length := by rw [hx, hv.1]
  simp only [layerStep, layerStepSpec]
  rw [rowMul_eq_vecMat x Wql hxq, rowMul_eq_vecMat x Wkl hxk,
    rowMul_eq_vecMat x Wvl hxv]
  have hscores : (kv.keys ++ [vecMat x Wkl]).map (fun kvk =>
      (List.range kvk.length).foldl
        (fun a i => a + kvk.getD i 0 * (vecMat x Wql).getD i 0) 0) =
      (kv.keys ++ [vecMat x Wkl]).map (fun key => dotZip key (vecMat x Wql)) :=
    List.map_congr_left (fun kvk _ => dotIdx_eq_dotZip kvk (vecMat x Wql))
  rw [hscores]
  have hvals : ∀ v ∈ kv.values ++ [vecMat x Wvl], v.length = d_model := by
    intro v hmem
    rcases List.mem_append.mp hmem with h | h
    · exact hkv.2.2 v h
    · rw [List.mem_singleton.mp h]
      have : (vecMat x Wvl).length = (Wvl.headD []).length := by
        simp [vecMat]
      rw [this]
      exact MatWF_headD_length Wvl d_model d_model hv (by decide)
  have hplen : (softmax e ((kv.keys ++ [vecMat x Wkl]).map
      (fun key => dotZip key (vecMat x Wql)))).length =
      (kv.values ++ [vecMat x Wvl]).length := by
    rw [softmax_length, List.length_map, List.length_append,
      List.length_append, hkv.1]
    simp
  have hattn := attn_eq (kv.values ++ [vecMat x Wvl])
    (softmax e ((kv.keys ++ [vecMat x Wkl]).map
      (fun key => dotZip key (vecMat x Wql)))) hplen hvals
  rw [hattn]
  have hwlen : (weightedSum (softmax e ((kv.keys ++ [vecMat x Wkl]).map
      (fun key => dotZip key (vecMat x Wql)))) (kv.values ++ [vecMat x Wvl])).length
      = Wol.length := by
    rw [length_weightedSum _ _ hvals, ho.1]
  rw [rowMul_eq_vecMat _ Wol hwlen]

theorem layerStepSpec_x_length (e : ℚ → ℚ) (Wql Wkl Wvl Wol : Mat)
    (kv : KVEntry) (x : Vec) :
    ((layerStepSpec e Wql Wkl Wvl Wol kv x).1).length = (Wol.headD []).length := by
  simp [layerStepSpec, vecMat]

theorem readKV_writeKV_same (c : Cache) (l : Nat) (kv : KVEntry) :
    readKV (writeKV c l kv) l = kv := by
  simp [readKV, writeKV]

theorem readKV_writeKV_ne (c : Cache) (l l' : Nat) (kv : KVEntry)
    (h : l ≠ l') : readKV (writeKV c l' kv) l = readKV c l := by
  simp [readKV, writeKV, h]

theorem readKV_writeKV_one_zero (c : Cache) (kv : KVEntry) :
    readKV (writeKV c 0 kv) 1 = readKV c 1 :=
  readKV_writeKV_ne c 1 0 kv (by decide)

theorem matList_getD_WF (L : List Mat) (l : Nat) (hlen : L.length = n_layers)
    (hall : ∀ M ∈ L, MatWF M d_model d_model) (hl : l < n_layers) :
    MatWF (L.getD l []) d_model d_model := by
  have hL : l < L.length := by rw [hlen]; exact hl
  rw [List.getD_eq_getElem _ _ hL]
  exact hall _ (List.getElem_mem hL)

/-- Claim C1: for every input token in `[0, vocab_size-1]` and every
well-formed cache state, the Decoder Step equals the reference
definition of spec §4.4 — `x` starts as row `t` of the embedding matrix;
per layer `q`, `k`, `v` are single-row products, `k`/`v` are appended to
the layer's cache, scores are dot products of every cached key with `q`,
probabilities are their softmax, the attention output is the
probability-weighted sum of all cached values, and the next `x` is that
output times the output-projection matrix with no residual, normalization
or feed-forward sublayer; the output token is the first-occurring index
of the maximum entry of `x · W_out`. -/
theorem transformerStep_eq_spec (e : ℚ → ℚ) (p : Params) (c : Cache)
    (t : Nat) (hp : ParamsWF p) (ht : t < vocab_size) (hc : CacheWF c) :
    transformerStep e p c t = transformerStepSpec e p c t := by
  obtain ⟨hq, hk, hv, ho, hqm, hkm, hvm, hom, hemb, hout⟩ := hp
  have hq0 := matList_getD_WF p.Wq 0 hq hqm (by decide)
  have hk0 := matList_getD_WF p.Wk 0 hk hkm (by decide)
  have hv0 := matList_getD_WF p.Wv 0 hv hvm (by decide)
  have ho0 := matList_getD_WF p.Wo 0 ho hom (by decide)
  have hq1 := matList_getD_WF p.Wq 1 hq hqm (by decide)
  have hk1 := matList_getD_WF p.Wk 1 hk hkm (by decide)
  have hv1 := matList_getD_WF p.Wv 1 hv hvm (by decide)
  have ho1 := matList_getD_WF p.Wo 1 ho hom (by decide)
  have hx0 : (p.W_embed.getD t []).length = d_model :=
    MatWF_getD_length p.W_embed vocab_size d_model t hemb ht
  have hr : List.range n_layers = [0, 1] := by decide
  simp only [transformerStep, transformerStepSpec, hr, List.foldl_cons,
    List.foldl_nil]
  rw [layerStep_eq e _ _ _ _ (readKV c 0) (p.W_embed.getD t []) hq0 hk0 hv0
    ho0 (hc 0 (by decide)) hx0]
  rw [readKV_writeKV_one_zero]
  have hx1 : ((layerStepSpec e (p.Wq.getD 0 []) (p.Wk.getD 0 [])
      (p.Wv.getD 0 []) (p.Wo.getD 0 []) (readKV c 0)
      (p.W_embed.getD t [])).1).length = d_model := by
    rw [layerStepSpec_x_length]
    exact MatWF_headD_length _ _ _ ho0 (by decide)
  rw [layerStep_eq e _ _ _ _ (readKV c 1) _ hq1 hk1 hv1 ho1
    (hc 1 (by decide)) hx1]
  have hx2 : ((layerStepSpec e (p.Wq.getD 1 []) (p.Wk.getD 1 [])
      (p.Wv.getD 1 []) (p.Wo.getD 1 []) (readKV c 1)
      ((layerStepSpec e (p.Wq.getD 0 []) (p.Wk.getD 0 [])
        (p.Wv.getD 0 []) (p.Wo.getD 0 []) (readKV c 0)
        (p.W_embed.getD t [])).1)).1).length = p.W_out.length := by
    rw [layerStepSpec_x_length, MatWF_headD_length _ _ _ ho1 (by decide),
      hout.1]
  rw [rowMul_eq_vecMat _ p.W_out hx2, indexOf_listMax]

theorem layerStep_entry_def (e : ℚ → ℚ) (Wql Wkl Wvl Wol : Mat)
    (kv : KVEntry) (x : Vec) :
    (layerStep e Wql Wkl Wvl Wol kv x).2 =
    ⟨kv.keys ++ [(matMul [x] Wkl).headD []],
     kv.values ++ [(matMul [x] Wvl).headD []]⟩ := rfl

/-- The effect of one Decoder Step on the cache: exactly one key/value
pair is appended to each of the two layers' entries, and every other
layer is untouched. -/
theorem transformerStep_cache (e : ℚ → ℚ) (p : Params) (c : Cache) (t : Nat) :
    (∃ k0 v0, readKV (transformerStep e p c t).2 0 =
      ⟨(readKV c 0).keys ++ [k0], (readKV c 0).values ++ [v0]⟩) ∧
    (∃ k1 v1, readKV (transformerStep e p c t).2 1 =
      ⟨(readKV c 1).keys ++ [k1], (readKV c 1).values ++ [v1]⟩) ∧
    ∀ l, 2 ≤ l → readKV (transformerStep e p c t).2 l = readKV c l := by
  have hr : List.range n_layers = [0, 1] := by decide
  simp only [transformerStep, hr, List.foldl_cons, List.foldl_nil]
  refine ⟨?_, ?_, ?_⟩
  · rw [readKV_writeKV_ne _ 0 1 _ (by decide), readKV_writeKV_same,
      layerStep_entry_def]
    exact ⟨_, _, rfl⟩
  · rw [readKV_writeKV_same, readKV_writeKV_one_zero, layerStep_entry_def]
    exact ⟨_, _, rfl⟩
  · intro l hl
    rw [readKV_writeKV_ne _ l 1 _ (by omega),
      readKV_writeKV_ne _ l 0 _ (by omega)]

theorem transformerStep_cache_lengths (e : ℚ → ℚ) (p : Params) (c : Cache)
    (t : Nat) (hc : ∀ l, (readKV c l).keys.length = (readKV c l).values.length) :
    ∀ l, (readKV (transformerStep e p c t).2 l).keys.length =
      (readKV (transformerStep e p c t).2 l).values.length := by
  obtain ⟨⟨k0, v0, h0⟩, ⟨k1, v1, h1⟩, hrest⟩ :=
    transformerStep_cache e p c t
  intro l
  match l with
  | 0 => rw [h0]; simp [hc 0]
  | 1 => rw [h1]; simp [hc 1]
  | (n + 2) => rw [hrest (n + 2) (by omega)]; exact hc (n + 2)

theorem iterSteps_lengths (e : ℚ → ℚ) (p : Params) :
    ∀ (ts : List Nat) (c : Cache),
    (∀ l, (readKV c l).keys.length = (readKV c l).values.length) →
    ∀ l, (readKV (iterSteps e p c ts) l).keys.length =
      (readKV (iterSteps e p c ts) l).values.length := by
  intro ts
  induction ts with
  | nil => intro c hc; exact hc
  | cons t ts ih =>
    intro c hc
    exact ih ((transformerStep e p c t).2)
      (transformerStep_cache_lengths e p c t hc)

/-! ## Helper lemmas: the generation loop -/

theorem genLoop_length_le (e : ℚ → ℚ) (p : Params) :
    ∀ (n t : Nat) (c : Cache) (out : List Nat),
    (genLoop e p n t c out).1.length ≤ out.length + n := by
  intro n
  induction n with
  | zero => intro t c out; simp [genLoop]
  | succ n ih =>
    intro t c out
    simp only [genLoop]
    by_cases h : (transformerStep e p c t).1 = EOS
    · rw [if_pos h]
      show out.length ≤ out.length + (n + 1)
      omega
    · rw [if_neg h]
      have := ih (transformerStep e p c t).1 (transformerStep e p c t).2
        (out ++ [(transformerStep e p c t).1])
      simp only [List.length_append, List.length_cons, List.length_nil] at this
      omega

theorem genLoop_no_EOS (e : ℚ → ℚ) (p : Params) :
    ∀ (n t : Nat) (c : Cache) (out : List Nat),
    EOS ∉ out → EOS ∉ (genLoop e p n t c out).1 := by
  intro n
  induction n with
  | zero => intro t c out h; simpa [genLoop] using h
  | succ n ih =>
    intro t c out h
    rw [genLoop]
    by_cases he : (transformerStep e p c t).1 = EOS
    · simpa [he] using h
    · rw [if_neg he]
      refine ih _ _ _ ?_
      intro hmem
      rcases List.mem_append.mp hmem with hm | hm
      · exact h hm
      · exact he (List.mem_singleton.mp hm).symm

/-! ## Helper lemmas: token range -/

theorem transformerStep_token_lt (e : ℚ → ℚ) (p : Params) (c : Cache)
    (t : Nat) (hout : MatWF p.W_out d_model vocab_size) :
    (transformerStep e p c t).1 < vocab_size := by
  simp only [transformerStep]
  have hlen : ∀ x : Vec, ((matMul [x] p.W_out).headD []).length = vocab_size := by
    intro x
    rw [length_rowMul, MatWF_headD_length _ _ _ hout (by decide)]
  have hne : ∀ x : Vec, (matMul [x] p.W_out).headD [] ≠ [] := by
    intro x h
    have := hlen x
    rw [h] at this
    simp [vocab_size] at this
  rw [← hlen ((List.range n_layers).foldl (fun acc l =>
      let kv := readKV acc.2 l
      let s := layerStep e (p.Wq.getD l []) (p.Wk.getD l []) (p.Wv.getD l [])
        (p.Wo.getD l []) kv acc.1
      (s.1, writeKV acc.2 l s.2)) (p.W_embed.getD t [], c)).1]
  exact List.indexOf_lt_length.mpr (listMax_mem _ (hne _))

theorem genLoop_tokens_lt (e : ℚ → ℚ) (p : Params)
    (hout : MatWF p.W_out d_model vocab_size) :
    ∀ (n t : Nat) (c : Cache) (out : List Nat),
    (∀ x ∈ out, x < vocab_size) →
    ∀ x ∈ (genLoop e p n t c out).1, x < vocab_size := by
  intro n
  induction n with
  | zero => intro t c out h; simpa [genLoop] using h
  | succ n ih =>
    intro t c out h
    rw [genLoop]
    by_cases he : (transformerStep e p c t).1 = EOS
    · simpa [he] using h
    · rw [if_neg he]
      refine ih _ _ _ ?_
      intro x hx
      rcases List.mem_append.mp hx with hm | hm
      · exact h x hm
      · rw [List.mem_singleton.mp hm]
        exact transformerStep_token_lt e p c t hout

/-! ## Helper lemmas: softmax -/

theorem sum_map_div (l : List ℚ) (s : ℚ) :
    (l.map (fun y => y / s)).sum = l.sum / s := by
  induction l with
  | nil => simp
  | cons x xs ih => simp [ih, add_div]

theorem matMul_eq_map_vecMat (A B : Mat) (m k n : Nat) (hA : MatWF A m k)
    (hB : MatWF B k n) : matMul A B = A.map (fun row => vecMat row B) := by
  have h2 : A.map (fun row => vecMat row B) =
      (List.range A.length).map (fun i => vecMat (A.getD i []) B) := by
    conv_lhs => rw [← map_range_getD A []]
    rw [List.map_map]
    exact List.map_congr_left (fun i _ => rfl)
  rw [h2]
  simp only [matMul]
  apply List.map_congr_left
  intro i hi
  have hik : i < A.length := List.mem_range.mp hi
  have hrow : (A.getD i []).length = B.length := by
    rw [MatWF_getD_length A m k i hA (by rw [← hA.1]; exact hik), hB.1]
  rw [← rowMul_eq_vecMat _ B hrow, rowMul_def]

/-! ## The claims -/

/-- Claim C2: the Generation Loop calls the Decoder Step on the current
input token at each iteration, stops on `EOS` without emitting it,
otherwise appends the token and feeds it back; it runs at most
`maxTokens` (100) iterations, so the result has length at most 100 and
never contains `EOS`. -/
theorem generation_loop_contract (e : ℚ → ℚ) (p : Params) (c : Cache)
    (userTokens : List Nat) :
    (generateBotResponse e p c userTokens).1.length ≤ maxTokens ∧
    EOS ∉ (generateBotResponse e p c userTokens).1 ∧
    (∀ (n t : Nat) (c' : Cache) (out : List Nat),
      genLoop e p (n + 1) t c' out =
        if (transformerStep e p c' t).1 = EOS then
          (out, (transformerStep e p c' t).2)
        else genLoop e p n (transformerStep e p c' t).1
          (transformerStep e p c' t).2
          (out ++ [(transformerStep e p c' t).1])) ∧
    generateBotResponse e p c userTokens =
      genLoop e p maxTokens (userTokens.headD 0) c [] := by
  refine ⟨?_, ?_, ?_, rfl⟩
  · have h := genLoop_length_le e p maxTokens (userTokens.headD 0) c []
    rw [List.length_nil, Nat.zero_add] at h
    exact h
  · exact genLoop_no_EOS e p maxTokens (userTokens.headD 0) c [] (by simp)
  · intro n t c' out
    simp only [genLoop]

/-- Claim C3: provided every layer's entry has equally many keys and
values, one Decoder Step appends exactly one key and one value vector to
each layer's entry (append-only, nothing removed or reordered), the
equal-length invariant is preserved, and it is preserved by any sequence
of Decoder Step invocations after a load. -/
theorem kv_cache_append_only (e : ℚ → ℚ) (p : Params) (c : Cache) (t : Nat)
    (hc : ∀ l, (readKV c l).keys.length = (readKV c l).values.length) :
    (∀ l < n_layers, ∃ kl vl,
      readKV (transformerStep e p c t).2 l =
        ⟨(readKV c l).keys ++ [kl], (readKV c l).values ++ [vl]⟩) ∧
    (∀ l, (readKV (transformerStep e p c t).2 l).keys.length =
      (readKV (transformerStep e p c t).2 l).values.length) ∧
    (∀ ts : List Nat, ∀ l,
      (readKV (iterSteps e p c ts) l).keys.length =
        (readKV (iterSteps e p c ts) l).values.length) := by
  obtain ⟨h0, h1, _⟩ := transformerStep_cache e p c t
  refine ⟨?_, transformerStep_cache_lengths e p c t hc,
    fun ts => iterSteps_lengths e p ts c hc⟩
  intro l hl
  have hl2 : l < 2 := hl
  have hcase : l = 0 ∨ l = 1 := by omega
  rcases hcase with rfl | rfl
  · exact h0
  · exact h1

/-- Claim C4, counterexample: on a malformed cache entry (one key, zero
values at layer 0) the Decoder Step neither fails nor truncates — it
silently appends one pair, leaving two keys against one value. -/
theorem decoder_step_malformed_cache_cex :
    (readKV malformedCache 0).keys.length ≠
      (readKV malformedCache 0).values.length ∧
    (readKV (transformerStep oneExp zeroParams malformedCache 0).2 0).keys.length = 2 ∧
    (readKV (transformerStep oneExp zeroParams malformedCache 0).2 0).values.length = 1 := by
  obtain ⟨⟨k0, v0, h⟩, _, _⟩ :=
    transformerStep_cache oneExp zeroParams malformedCache 0
  refine ⟨by decide, ?_, ?_⟩
  · rw [h]
    have h1 : (readKV malformedCache 0).keys.length = 1 := by decide
    simp only [List.length_append, List.length_cons, List.length_nil, h1]
  · rw [h]
    have h2 : (readKV malformedCache 0).values.length = 0 := by decide
    simp only [List.length_append, List.length_cons, List.length_nil, h2]

/-- Claim C4, amended: the Decoder Step has no malformed-cache guard:
on an entry with mismatched key/value lengths it silently computes,
appends exactly one key and one value, and leaves the lengths still
mismatched (no CacheCorruption failure, no truncation). -/
theorem decoder_step_no_malformed_guard (e : ℚ → ℚ) (p : Params)
    (c : Cache) (t l : Nat) (hl : l < n_layers)
    (hbad : (readKV c l).keys.length ≠ (readKV c l).values.length) :
    (readKV (transformerStep e p c t).2 l).keys.length =
      (readKV c l).keys.length + 1 ∧
    (readKV (transformerStep e p c t).2 l).values.length =
      (readKV c l).values.length + 1 ∧
    (readKV (transformerStep e p c t).2 l).keys.length ≠
      (readKV (transformerStep e p c t).2 l).values.length := by
  obtain ⟨h0, h1, _⟩ := transformerStep_cache e p c t
  have hl2 : l < 2 := hl
  have hcase : l = 0 ∨ l = 1 := by omega
  rcases hcase with rfl | rfl
  · obtain ⟨k0, v0, h⟩ := h0
    rw [h]
    refine ⟨by simp, by simp, ?_⟩
    simp only [List.length_append, List.length_cons, List.length_nil]
    omega
  · obtain ⟨k1, v1, h⟩ := h1
    rw [h]
    refine ⟨by simp, by simp, ?_⟩
    simp only [List.length_append, List.length_cons, List.length_nil]
    omega

/-- Claim C5, counterexample: `matMul` never signals a shape mismatch —
on `A` with 2 columns and `B` with 1 row it silently returns a result
(computed over `B`'s single row, ignoring `A`'s second column). -/
theorem matMul_mismatched_shapes_cex : matMul [[1, 2]] [[3, 4]] = [[3, 4]] := by
  simp [matMul, List.range_succ]

/-- Claim C5, amended: `matMul` performs no shape validation and never
fails; on conforming shapes (`A.cols = B.rows`, both rectangular and the
inner dimension positive) it returns the standard dense product of shape
`(A.rows, B.cols)`: row `i` of the output is row `i` of `A` times `B`. -/
theorem matMul_contract (A B : Mat) (m k n : Nat) (hA : MatWF A m k)
    (hB : MatWF B k n) (hk : 0 < k) :
    (matMul A B).length = m ∧
    (∀ row ∈ matMul A B, row.length = n) ∧
    matMul A B = A.map (fun row => vecMat row B) := by
  refine ⟨?_, ?_, matMul_eq_map_vecMat A B m k n hA hB⟩
  · simp [matMul, hA.1]
  · intro row hrow
    simp only [matMul, List.mem_map] at hrow
    obtain ⟨i, _, rfl⟩ := hrow
    rw [List.length_map, List.length_range]
    exact MatWF_headD_length B k n hB hk

/-- Claim C6, counterexample: a persistence failure can propagate to the
caller — when `indexedDB.open` fails, `openDB()`'s rejection is not
caught by `getKV`, which therefore yields an error, not the empty
entry. -/
theorem kv_load_open_failure_cex :
    getKV DBResult.openFailure = Except.error DBError.openFailed ∧
    getKV DBResult.openFailure ≠ Except.ok emptyKV :=
  ⟨rfl, fun h => Except.noConfusion h⟩

/-- Claim C6, amended: `getKV` returns the persisted entry for the layer
when one is stored, and the empty entry `{keys: [], values: []}` when
the key is absent or the `get` request errors — those persistence
failures never propagate; but a failure to open the database (or a
synchronous transaction throw) is uncaught and propagates as an error to
the caller. -/
theorem kv_load_contract :
    (∀ kv, getKV (DBResult.opened (GetResult.found kv)) = Except.ok kv) ∧
    getKV (DBResult.opened GetResult.absent) = Except.ok emptyKV ∧
    getKV (DBResult.opened GetResult.requestError) = Except.ok emptyKV ∧
    getKV DBResult.openFailure = Except.error DBError.openFailed ∧
    getKV (DBResult.opened GetResult.transactionThrew) =
      Except.error DBError.transactionFailed ∧
    emptyKV = ⟨[], []⟩ :=
  ⟨fun _ => rfl, rfl, rfl, rfl, rfl, rfl⟩

/-- Claim C7: for a positive exponential map and a nonempty vector,
`softmax` subtracts the maximum before applying the exponential (every
shifted argument is `≤ 0`), preserves length, and returns entries in
`(0, 1]` that sum to exactly 1. -/
theorem softmax_contract (e : ℚ → ℚ) (v : Vec) (he : ∀ x, 0 < e x)
    (hv : v ≠ []) :
    softmax e v = (v.map (fun x => e (x - listMax v))).map
      (fun y => y / (v.map (fun x => e (x - listMax v))).sum) ∧
    (softmax e v).length = v.length ∧
    (∀ q ∈ softmax e v, 0 < q ∧ q ≤ 1) ∧
    (softmax e v).sum = 1 ∧
    (∀ x ∈ v, x - listMax v ≤ 0) := by
  have hpos : ∀ y ∈ v.map (fun x => e (x - listMax v)), 0 < y := by
    intro y hy
    rcases List.mem_map.mp hy with ⟨x, _, rfl⟩
    exact he _
  have hne : v.map (fun x => e (x - listMax v)) ≠ [] := by
    simpa using hv
  have hS : 0 < (v.map (fun x => e (x - listMax v))).sum :=
    List.sum_pos _ hpos hne
  have hdef : softmax e v = (v.map (fun x => e (x - listMax v))).map
      (fun y => y / (v.map (fun x => e (x - listMax v))).sum) := by
    simp only [softmax]
    rw [← List.sum_eq_foldl]
  refine ⟨hdef, by rw [hdef]; simp, ?_, ?_, ?_⟩
  · intro q hq
    rw [hdef] at hq
    rcases List.mem_map.mp hq with ⟨y, hy, rfl⟩
    refine ⟨div_pos (hpos y hy) hS, ?_⟩
    rw [div_le_one hS]
    exact List.single_le_sum (fun x hx => le_of_lt (hpos x hx)) y hy
  · rw [hdef, sum_map_div, div_self (ne_of_gt hS)]
  · intro x hx
    have := le_listMax v x hx
    linarith

/-- Claim C8: `encode` maps each character code modulo `vocab_size - 1`,
so every token it produces lies in `[0, vocab_size - 2]` and is never
`EOS`; `decode` maps a token to the character of code `id + 65`, except
`EOS` which maps to the empty string. -/
theorem tokenizer_contract (s : List Nat) (x : Nat) :
    (∀ t ∈ encode s, t ≤ vocab_size - 2) ∧
    EOS ∉ encode s ∧
    decode [x] = (if x = EOS then [] else [x + 65]) ∧
    encode s = s.map (fun c => c % (vocab_size - 1)) := by
  refine ⟨?_, ?_, ?_, rfl⟩
  · intro t ht
    rcases List.mem_map.mp ht with ⟨c, _, rfl⟩
    have : c % 99 < 99 := Nat.mod_lt c (by decide)
    simp only [vocab_size]
    omega
  · intro hmem
    rcases List.mem_map.mp hmem with ⟨c, _, hc⟩
    have : c % 99 < 99 := Nat.mod_lt c (by decide)
    rw [show vocab_size - 1 = 99 from rfl] at hc
    rw [show EOS = 99 from rfl] at hc
    omega
  · by_cases hx : x = EOS <;> simp [decode, hx]

/-- Claim C9: the tokenizer round-trip is not the identity — there is a
string on which `decode (encode s) ≠ s` (lossy by design). -/
theorem tokenizer_round_trip_lossy : ∃ s : List Nat, decode (encode s) ≠ s :=
  ⟨[0], by decide⟩

/-- Claim C10: the Decoder Step returns an index below `vocab_size`
because the logits row has `W_out`'s column count `vocab_size` and the
chosen index is a position of its maximum; hence every token the
Generation Loop emits is a valid token id. -/
theorem decoder_token_in_range (e : ℚ → ℚ) (p : Params) (c : Cache)
    (t : Nat) (userTokens : List Nat)
    (hout : MatWF p.W_out d_model vocab_size) :
    (transformerStep e p c t).1 < vocab_size ∧
    ∀ x ∈ (generateBotResponse e p c userTokens).1, x < vocab_size := by
  refine ⟨transformerStep_token_lt e p c t hout, ?_⟩
  exact genLoop_tokens_lt e p hout maxTokens (userTokens.headD 0) c []
    (by simp)

/-! ## Witnesses: the theorems above instantiated at concrete inputs -/

/-- C1's theorem applied to all-zero parameters of the source's shapes,
token 5 and the empty cache. -/
theorem transformerStep_eq_spec_witness :
    transformerStep oneExp zeroParams emptyCache 5 =
      transformerStepSpec oneExp zeroParams emptyCache 5 :=
  transformerStep_eq_spec oneExp zeroParams emptyCache 5 (by decide)
    (by decide) (by decide)

/-- C3's theorem applied to the empty cache and token 3: the stepped
cache keeps equal key/value lengths at layer 0. -/
theorem kv_cache_append_only_witness :
    (readKV (transformerStep oneExp zeroParams emptyCache 3).2 0).keys.length =
      (readKV (transformerStep oneExp zeroParams emptyCache 3).2 0).values.length :=
  (kv_cache_append_only oneExp zeroParams emptyCache 3 (fun _ => rfl)).2.1 0

/-- C4's amended theorem applied to the malformed cache: the key list of
layer 0 grows by exactly one entry rather than being truncated. -/
theorem decoder_step_no_malformed_guard_witness :
    (readKV (transformerStep oneExp zeroParams malformedCache 7).2 0).keys.length =
      (readKV malformedCache 0).keys.length + 1 :=
  (decoder_step_no_malformed_guard oneExp zeroParams malformedCache 7 0
    (by decide) (by decide)).1

/-- C5's amended theorem applied to conforming `1 × 1` matrices. -/
theorem matMul_contract_witness :
    matMul [[1]] [[2]] = [[1]].map (fun row => vecMat row [[2]]) :=
  (matMul_contract [[1]] [[2]] 1 1 1 (by decide) (by decide) (by decide)).2.2

/-- C7's theorem applied to the constant-one exponential and `[0, 1]`. -/
theorem softmax_contract_witness :
    (softmax oneExp [0, 1]).sum = 1 :=
  (softmax_contract oneExp [0, 1] (fun _ => one_pos) (by decide)).2.2.2.1

/-- C10's theorem applied to all-zero parameters, the empty cache and
token 0. -/
theorem decoder_token_in_range_witness :
    (transformerStep oneExp zeroParams emptyCache 0).1 < vocab_size :=
  (decoder_token_in_range oneExp zeroParams emptyCache 0 [] (by decide)).1

end TinyChat
